import Mathlib

/-!
# Telemetry processing pipeline of the PowerPedal dashboard: a shallow embedding

This file embeds the telemetry-processing core of
`src/powerpedal_test_dashboard.py` and proves properties of it.

Embedding conventions:
* Numeric cell values are rationals (`ℚ`); the script's float arithmetic is
  exact rational arithmetic on the inputs considered here.
* A `Sample` is one row of the frame with the five required columns
  `Time`, `Battery Power`, `Rider Power`, `KMPH`, `Ride Distance`;
  a `Series` is the ordered list of rows.  A frame additionally carries its
  pandas index labels as an explicit list aligned with the rows: `read_csv`
  assigns the labels `0, 1, ..., N-1`, and `dropna()` (line 71), the
  boolean-mask time filter (lines 241/246) and `.copy()` (line 265) all
  preserve the surviving rows' original labels, so the frames reaching
  `advanced_downsample` generally have offset or gapped labels.
  `df['bin'] = df.index // bin_size` (line 81) therefore bins by label,
  and `groupby('bin')` emits one row per distinct label quotient, in
  ascending key order.
* Stateful behaviour (the in-place `df['bin'] = ...` assignment in
  `advanced_downsample`) is modelled by explicit state passing: the state
  version of the function returns the final state of its argument frame
  next to its result.
* Fallible behaviour (`st.error(...)` followed by `return pd.DataFrame()`
  in `load_data`) is modelled with `Except`: the error value records the
  message's payload (the missing column names).
* Columns fed to the smoothing block are `List (Option ℚ)`: `none` is a
  missing value (`NaN`).  `rollingMean` embeds
  `rolling(window=w, center=True, min_periods=1).mean()` with pandas'
  fixed-window bounds for `center=True`: the window of output position `i`
  covers input indices `i + 1 + (w-1)/2 - w` up to `i + (w-1)/2`
  (clipped to the array), i.e. for even `w` the extra sample is taken from
  the past side.  Missing values inside a window are skipped; a window with
  at least one present value (`min_periods=1`) yields their mean.
-/

namespace PowerPedal

/-- One telemetry row with the five required numeric columns of the script
(`Time`, `Battery Power`, `Rider Power`, `KMPH`, `Ride Distance`). -/
structure Sample where
  time : ℚ
  batteryPower : ℚ
  riderPower : ℚ
  kmph : ℚ
  rideDistance : ℚ
  deriving DecidableEq, Repr

/-- A telemetry series: the ordered rows of the frame. -/
abbrev Series := List Sample

/-- Arithmetic mean of a list of rationals (pandas `'mean'` aggregation;
the empty list yields `0/0 = 0`, unreachable for the nonempty bins below). -/
def meanQ (l : List ℚ) : ℚ := l.sum / (l.length : ℚ)

/-- Maximum of a list of rationals (pandas `'max'` aggregation); `0` on the
empty list, unreachable for the nonempty bins below. -/
def maxQ : List ℚ → ℚ
  | [] => 0
  | x :: xs => xs.foldl max x

/-- The rows of positional bin `j` for bin size `b`: when the frame's
index is the fresh `RangeIndex` `0..n-1`, `df.index // bin_size == j`
selects exactly the positions `j*b ≤ i < (j+1)*b`. -/
def binSeg (s : Series) (b j : ℕ) : Series :=
  (s.drop (j * b)).take b

/-- The aggregation dictionary of `advanced_downsample`: mean for `Time`,
`Battery Power`, `Rider Power`, `KMPH` and max for `Ride Distance`. -/
def aggBin (c : Series) : Sample where
  time := meanQ (c.map Sample.time)
  batteryPower := meanQ (c.map Sample.batteryPower)
  riderPower := meanQ (c.map Sample.riderPower)
  kmph := meanQ (c.map Sample.kmph)
  rideDistance := maxQ (c.map Sample.rideDistance)

/-- Number of nonempty bins produced by grouping indices `0..n-1` by
`i / b`: the ceiling of `n / b`. -/
def numBins (n b : ℕ) : ℕ := (n + b - 1) / b

/-- The rows of the group with bin key `k`: all rows whose entry in the
key column equals `k`, in row order (`groupby` collects by key value). -/
def groupRows {α : Type} (keys : List ℕ) (l : List α) (k : ℕ) : List α :=
  ((keys.zip l).filter (fun p => p.1 == k)).map Prod.snd

/-- The group keys of `groupby('bin')` with `sort=True` (the default): the
distinct values of the bin column `index // b`, in ascending order.  Every
key is a label quotient, hence at most `max(index) // b`, so the ascending
list of distinct keys is the filter of `range (max(index) // b + 1)` down
to the values that occur. -/
def groupKeys (idx : List ℕ) (b : ℕ) : List ℕ :=
  (List.range (idx.foldr max 0 / b + 1)).filter
    (fun k => (idx.map (fun i => i / b)).contains k)

/-- `advanced_downsample(df, max_points)` (src lines 77-89) on a frame
with index labels `idx` and rows `s`: return the frame unchanged when
`len(df) <= max_points`; otherwise `bin_size = len(df) // max_points + 1`,
set `df['bin'] = df.index // bin_size` (binning by the frame's index
labels) and emit, for each distinct bin key in ascending order, one row
aggregating that key's group with `aggBin`. -/
def advanced_downsample (idx : List ℕ) (s : Series) (maxPoints : ℕ) : Series :=
  if s.length ≤ maxPoints then s
  else
    (groupKeys idx (s.length / maxPoints + 1)).map
      (fun k => aggBin (groupRows
        (idx.map (fun i => i / (s.length / maxPoints + 1))) s k))

/-- Downsampler as claim C2 states it, for comparison with the source:
identical except that the bin size is `ceil(length / max_points)`
(which is `numBins s.length maxPoints`) instead of
`length // max_points + 1`. -/
def downsampleClaim (s : Series) (maxPoints : ℕ) : Series :=
  if s.length ≤ maxPoints then s
  else
    (List.range (numBins s.length (numBins s.length maxPoints))).map
      (fun j => aggBin (binSeg s (numBins s.length maxPoints) j))

/-- A frame as passed to `advanced_downsample`: its index labels, its
rows, and the optional `'bin'` column (present only after the in-place
assignment `df['bin'] = df.index // bin_size`). -/
structure DFrame where
  index : List ℕ
  s : Series
  bin : Option (List ℕ)
  deriving DecidableEq, Repr

/-- State-passing version of `advanced_downsample`: the first component is
the state of the argument frame after the call, the second the returned
frame's rows.  On the fast path the function returns before touching the
argument; on the slow path `df['bin'] = df.index // bin_size` adds the
`'bin'` column — the quotients of the frame's index labels — to the
caller's frame in place. -/
def advanced_downsample_call (df : DFrame) (maxPoints : ℕ) : DFrame × Series :=
  if df.s.length ≤ maxPoints then (df, df.s)
  else
    (⟨df.index, df.s, some (df.index.map
        (fun i => i / (df.s.length / maxPoints + 1)))⟩,
      advanced_downsample df.index df.s maxPoints)

/-- The time-window filter (src lines 241/246):
`df[(df["Time"] >= time_range[0]) & (df["Time"] <= time_range[1])]`.
Boolean-mask selection builds a new frame; the function is total and
returns the (possibly empty) subsequence of in-range rows. -/
def filterSeries (s : Series) (a b : ℚ) : Series :=
  s.filter (fun x => decide (a ≤ x.time) && decide (x.time ≤ b))

/-- Error value of the invalid-range failure described by the spec. -/
inductive RangeError where
  | invalidRange
  deriving DecidableEq, Repr

/-- Time-window filter as claim C4 states it, for comparison with the
source: fail with `InvalidRangeError` when `start > end`, otherwise
return the in-range rows. -/
def filterClaim (s : Series) (a b : ℚ) : Except RangeError Series :=
  if b < a then .error .invalidRange else .ok (filterSeries s a b)

/-- The UI-layer handling of `start_time >= end_time` (src lines 163-167):
show an error, then set `start_time = max(min_time, end_time - 100)` and
`end_time = min(max_time, start_time + 100)` (the corrected start).
Out of that branch the bounds are kept. -/
def adjustTimeRange (minT maxT startT endT : ℤ) : ℤ × ℤ :=
  if endT ≤ startT then
    (max minT (endT - 100), min maxT (max minT (endT - 100) + 100))
  else (startT, endT)

/-- A raw cell of the CSV table: a numeric value, a non-numeric text value
(fails `pd.to_numeric(..., errors="coerce")` but is not `NaN`), or a
missing value (`NaN`). -/
inductive Cell where
  | num (q : ℚ)
  | text (s : String)
  | na
  deriving DecidableEq, Repr

/-- Whether a cell holds a numeric value. -/
def isNum : Cell → Bool
  | .num _ => true
  | _ => false

/-- `pd.to_numeric(cell, errors="coerce")`: numeric values survive, text
becomes `NaN`, `NaN` stays `NaN`. -/
def toNumeric : Cell → Cell
  | .num q => .num q
  | _ => .na

/-- A raw tabular input: named columns and rows aligned with them. -/
structure RawTable where
  cols : List String
  rows : List (List Cell)
  deriving DecidableEq, Repr

/-- The per-row effect of the coercion loop
`for col in required_cols: df[col] = pd.to_numeric(df[col], errors="coerce")`:
required columns are coerced, the others keep their value. -/
def coerceRow (req cols : List String) (row : List Cell) : List Cell :=
  List.zipWith (fun c x => if c ∈ req then toNumeric x else x) cols row

/-- Whether a row contains a `NaN` in any column: the rows `df.dropna()`
removes. -/
def rowHasNA (row : List Cell) : Bool :=
  row.any fun x => x == Cell.na

/-- Characterisation of the rows dropped by `load_data`'s cleaning, stated
on the original row: some required column fails numeric coercion, or some
other column holds a missing value. -/
def badRow (req cols : List String) (row : List Cell) : Bool :=
  (cols.zip row).any fun p =>
    if p.1 ∈ req then ! isNum p.2 else p.2 == Cell.na

/-- The rows claim C5 says are dropped: numeric coercion fails for some
required column. -/
def reqCoerceFails (req cols : List String) (row : List Cell) : Bool :=
  (cols.zip row).any fun p => decide (p.1 ∈ req) && ! isNum p.2

/-- The script's failure signal for a dataset load: `st.error` names the
missing columns and an empty frame is returned; modelled as an error value
carrying the missing column names. -/
inductive LoadError where
  | schemaError (missing : List String)
  deriving DecidableEq, Repr

/-- The `required_cols` constant of `load_data` (src line 64). -/
def requiredCols : List String :=
  ["Time", "Battery Power", "Rider Power", "KMPH", "Ride Distance"]

/-- The validation and cleaning core of `load_data` (src lines 64-72):
compute `missing_cols`, fail when it is nonempty, otherwise coerce the
required columns to numeric and `dropna()` (which removes every row with a
`NaN` in any column).  The CSV fetch and `try`/`except` wrapper around it
are the external data-loading collaborator. -/
def load_data (t : RawTable) (req : List String) : Except LoadError (List (List Cell)) :=
  let missing_cols := req.filter fun c => ! t.cols.contains c
  if missing_cols ≠ [] then .error (.schemaError missing_cols)
  else .ok ((t.rows.map (coerceRow req t.cols)).filter fun r => ! rowHasNA r)

/-- The contiguous slice of a column covering indices `lo` to `hi`
inclusive. -/
def windowSlice (l : List (Option ℚ)) (lo hi : ℕ) : List (Option ℚ) :=
  (l.drop lo).take (hi + 1 - lo)

/-- Mean of the present values of a window (`min_periods=1`): `none` only
when no value in the window is present. -/
def winMean (seg : List (Option ℚ)) : Option ℚ :=
  let vals := seg.filterMap id
  if vals.length = 0 then none else some (vals.sum / (vals.length : ℚ))

/-- `col.rolling(window=w, center=True, min_periods=1).mean()`
(src lines 270-272): pandas' fixed-window bounds for `center=True` place
the window of output position `i` on input indices
`i + 1 + (w-1)/2 - w` to `i + (w-1)/2`, clipped to the array
(the subtraction is truncated, which is exactly the clip at 0).  For even
`w` the extra sample lies on the past side of `i`. -/
def rollingMean (w : ℕ) (l : List (Option ℚ)) : List (Option ℚ) :=
  (List.range l.length).map fun i =>
    winMean (windowSlice l (i + 1 + (w - 1) / 2 - w)
      (min (i + (w - 1) / 2) (l.length - 1)))

/-- The smoother as claim C6 (via spec §4.4) states it, for comparison
with the source: the window of position `i` covers indices
`i - (w-1)/2` to `i + ((w-1) - (w-1)/2)`, clipped to the array — for even
`w` the extra sample lies on the future side of `i`. -/
def rollingMeanClaim (w : ℕ) (l : List (Option ℚ)) : List (Option ℚ) :=
  (List.range l.length).map fun i =>
    winMean (windowSlice l (i - (w - 1) / 2)
      (min (i + ((w - 1) - (w - 1) / 2)) (l.length - 1)))

/-- A graph frame as handed to the smoothing block: the five columns, with
`none` for a missing value. -/
structure GraphFrame where
  time : List (Option ℚ)
  batteryPower : List (Option ℚ)
  riderPower : List (Option ℚ)
  kmph : List (Option ℚ)
  rideDistance : List (Option ℚ)
  deriving DecidableEq, Repr

/-- Last present value strictly before position `i`, with its position. -/
def prevSome (l : List (Option ℚ)) (i : ℕ) : Option (ℕ × ℚ) :=
  (((l.take i).enum).filterMap fun p => p.2.map fun v => (p.1, v)).getLast?

/-- First present value strictly after position `i`, with its position. -/
def nextSome (l : List (Option ℚ)) (i : ℕ) : Option (ℕ × ℚ) :=
  ((l.enum.drop (i + 1)).filterMap fun p => p.2.map fun v => (p.1, v)).head?

/-- One output position of `interpolate(method="linear")` (forward
direction, values treated as equally spaced): present values are kept; a
missing value between two present ones is linearly interpolated by
position; a missing value after the last present one repeats it; missing
values before the first present one stay missing. -/
def interpAt (l : List (Option ℚ)) (i : ℕ) : Option ℚ :=
  match l[i]? with
  | some (some v) => some v
  | some none =>
    match prevSome l i, nextSome l i with
    | some jv, some kv =>
        some (jv.2 + (kv.2 - jv.2) * ((i : ℚ) - (jv.1 : ℚ)) / ((kv.1 : ℚ) - (jv.1 : ℚ)))
    | some jv, none => some jv.2
    | none, _ => none
  | none => none

/-- `df.interpolate(method="linear")` on one column. -/
def interpolateLinear (l : List (Option ℚ)) : List (Option ℚ) :=
  (List.range l.length).map (interpAt l)

/-- Forward fill with a carried last present value. -/
def ffillAux (carry : Option ℚ) : List (Option ℚ) → List (Option ℚ)
  | [] => []
  | none :: xs => carry :: ffillAux carry xs
  | some v :: xs => some v :: ffillAux (some v) xs

/-- `fillna(method="ffill")` on one column. -/
def ffill (l : List (Option ℚ)) : List (Option ℚ) :=
  ffillAux none l

/-- `fillna(method="bfill")` on one column: forward fill on the reversed
column. -/
def bfill (l : List (Option ℚ)) : List (Option ℚ) :=
  (ffillAux none l.reverse).reverse

/-- The column-wise tail of the smoothing block:
`.interpolate(method="linear").fillna(method="ffill").fillna(method="bfill")`. -/
def postCol (c : List (Option ℚ)) : List (Option ℚ) :=
  bfill (ffill (interpolateLinear c))

/-- The smoothing block (src lines 269-273): reassign `Battery Power`,
`Rider Power` and `KMPH` to their centered rolling means, then apply
interpolation and the two fills to every column of the frame. -/
def smoothFrame (w : ℕ) (f : GraphFrame) : GraphFrame where
  time := postCol f.time
  batteryPower := postCol (rollingMean w f.batteryPower)
  riderPower := postCol (rollingMean w f.riderPower)
  kmph := postCol (rollingMean w f.kmph)
  rideDistance := postCol f.rideDistance

/-- Whether a graph frame contains no missing value. -/
def noMissing (f : GraphFrame) : Bool :=
  f.time.all Option.isSome && f.batteryPower.all Option.isSome &&
    f.riderPower.all Option.isSome && f.kmph.all Option.isSome &&
      f.rideDistance.all Option.isSome

/-- Modelled from the spec: the source file contains no efficiency
computation (spec §4.5's `efficiency_m_per_wh` has no counterpart under
`src/`), so the definition follows the spec's words: `distance_m /
energy_wh` if `energy_wh > 0`, else `0.0`.  Over `ℚ` the function is
total, so no error, infinity or `NaN` can arise. -/
def efficiency_m_per_wh (distance_m energy_wh : ℚ) : ℚ :=
  if 0 < energy_wh then distance_m / energy_wh else 0

/-! ### Concrete inputs used by witnesses and counterexamples -/

/-- A three-sample series. -/
def exS3 : Series :=
  [⟨1, 10, 20, 5, 0⟩, ⟨2, 11, 21, 6, 3⟩, ⟨3, 12, 22, 7, 8⟩]

/-- A four-sample series with non-decreasing `Ride Distance`. -/
def exS4 : Series :=
  [⟨0, 0, 0, 0, 0⟩, ⟨10, 0, 0, 0, 5⟩, ⟨20, 0, 0, 0, 7⟩, ⟨30, 0, 0, 0, 9⟩]

/-- The fresh `RangeIndex` of a four-row frame. -/
def exIdx4 : List ℕ := [0, 1, 2, 3]

/-- A five-sample series with non-decreasing `Ride Distance`. -/
def exS5 : Series :=
  [⟨0, 0, 0, 0, 0⟩, ⟨10, 0, 0, 0, 1⟩, ⟨20, 0, 0, 0, 2⟩,
    ⟨30, 0, 0, 0, 3⟩, ⟨40, 0, 0, 0, 4⟩]

/-- Index labels of a five-row frame whose first two original rows were
removed (by `dropna()` or the time filter): the labels `2..6` survive. -/
def exIdx5 : List ℕ := [2, 3, 4, 5, 6]

/-- A two-row frame, with labels left by row removal, without a `'bin'`
column. -/
def exDF : DFrame :=
  ⟨[3, 5], [⟨0, 1, 2, 3, 4⟩, ⟨1, 5, 6, 7, 8⟩], none⟩

/-- A table with all five required columns numeric everywhere, plus a
`Notes` column whose first row is missing. -/
def exTable : RawTable where
  cols := ["Time", "Battery Power", "Rider Power", "KMPH", "Ride Distance", "Notes"]
  rows := [[.num 1, .num 2, .num 3, .num 4, .num 5, .na],
           [.num 6, .num 7, .num 8, .num 9, .num 10, .text "dry road"]]

/-- A table lacking the required column `Rider Power`. -/
def exTableMissing : RawTable where
  cols := ["Time", "Battery Power", "KMPH", "Ride Distance"]
  rows := [[.num 1, .num 2, .num 4, .num 5]]

/-- A one-sample-per-column graph frame without missing values. -/
def exFrame : GraphFrame :=
  ⟨[some 1, some 2], [some 3, some 4], [some 5, some 6],
    [some 7, some 8], [some 9, some 10]⟩

/-! ## Lemmas and claim theorems -/

/-- Grouping `n` positional indices by `i / b` yields at most `m` groups
when `b = n / m + 1`. -/
lemma numBins_le (n m : ℕ) (hm : 1 ≤ m) (_hnm : m < n) :
    numBins n (n / m + 1) ≤ m := by
  unfold numBins
  set b := n / m + 1 with hb
  have hb0 : 0 < b := Nat.succ_pos _
  by_contra hlt
  push_neg at hlt
  have h1 : (m + 1) * b ≤ n + b - 1 := (Nat.le_div_iff_mul_le hb0).mp hlt
  have h2 : n < m * b := by
    have hdm := Nat.div_add_mod n m
    have hmod : n % m < m := Nat.mod_lt n (by omega)
    calc n = m * (n / m) + n % m := hdm.symm
    _ < m * (n / m) + m := by omega
    _ = m * b := by rw [hb]; ring
  have hexp : (m + 1) * b = m * b + b := by ring
  set p := m * b
  omega

/-- Nonempty input yields at least one bin. -/
lemma numBins_pos (n b : ℕ) (hn : 1 ≤ n) (hb : 1 ≤ b) :
    1 ≤ numBins n b := by
  unfold numBins
  exact (Nat.le_div_iff_mul_le (by omega)).mpr (by omega)

/-- Every member of a list of naturals is at most its max-fold. -/
lemma mem_le_foldr_max (l : List ℕ) (x : ℕ) (hx : x ∈ l) : x ≤ l.foldr max 0 := by
  induction l with
  | nil => cases hx
  | cons y ys ih =>
    rcases List.mem_cons.mp hx with h | h
    · subst h
      exact le_max_left x _
    · exact le_trans (ih h) (le_max_right _ _)

/-- A max-fold over naturals splits off its seed. -/
lemma foldr_max_seed (l : List ℕ) (z : ℕ) :
    l.foldr max z = max (l.foldr max 0) z := by
  induction l generalizing z with
  | nil => simp
  | cons y ys ih =>
    simp only [List.foldr_cons]
    rw [ih z]
    omega

/-- The greatest label of a fresh `RangeIndex`. -/
lemma foldr_max_range (n : ℕ) : (List.range n).foldr max 0 = n - 1 := by
  induction n with
  | zero => rfl
  | succ k ih =>
    rw [List.range_succ, List.foldr_append]
    simp only [List.foldr_cons, List.foldr_nil]
    rw [foldr_max_seed, ih]
    omega

/-- A bin key occurs among the group keys exactly when some index label
has that quotient. -/
lemma mem_groupKeys (idx : List ℕ) (b k : ℕ) :
    k ∈ groupKeys idx b ↔ k ∈ idx.map (fun i => i / b) := by
  unfold groupKeys
  rw [List.mem_filter]
  constructor
  · intro h
    exact List.elem_iff.mp h.2
  · intro hk
    refine ⟨?_, List.elem_iff.mpr hk⟩
    obtain ⟨i, hi, hik⟩ := List.mem_map.mp hk
    subst hik
    exact List.mem_range.mpr
      (Nat.lt_succ_of_le (Nat.div_le_div_right (mem_le_foldr_max idx i hi)))

/-- The group keys are strictly ascending (groupby sorts them). -/
lemma groupKeys_pairwise (idx : List ℕ) (b : ℕ) :
    List.Pairwise (fun a c => a < c) (groupKeys idx b) :=
  (List.pairwise_lt_range _).filter _

/-- A key that occurs in the key column has a nonempty group. -/
lemma groupRows_ne_nil {α : Type} (keys : List ℕ) (l : List α) (k : ℕ)
    (hlen : keys.length = l.length) (hk : k ∈ keys) :
    groupRows keys l k ≠ [] := by
  obtain ⟨i, hi, hki⟩ := List.mem_iff_getElem.mp hk
  have hzl : i < (keys.zip l).length := by
    rw [List.length_zip]
    omega
  have hmem : (keys.zip l)[i] ∈ (keys.zip l).filter (fun p => p.1 == k) := by
    rw [List.mem_filter]
    refine ⟨List.getElem_mem hzl, ?_⟩
    rw [List.getElem_zip]
    simp [hki]
  unfold groupRows
  exact List.ne_nil_of_mem (List.mem_map_of_mem Prod.snd hmem)

/-- Mapping a function over a group is grouping the mapped column. -/
lemma groupRows_map {α β : Type} (f : α → β) (keys : List ℕ) (l : List α)
    (k : ℕ) : (groupRows keys l k).map f = groupRows keys (l.map f) k := by
  unfold groupRows
  rw [List.zip_map_right, List.filter_map, List.map_map, List.map_map]
  rfl

/-- Componentwise `Pairwise` on a zip of two `Pairwise` lists. -/
lemma pairwise_zip {α β : Type} {R : α → α → Prop} {S : β → β → Prop} :
    ∀ {l₁ : List α} {l₂ : List β}, List.Pairwise R l₁ → List.Pairwise S l₂ →
      List.Pairwise (fun p q => R p.1 q.1 ∧ S p.2 q.2) (l₁.zip l₂) := by
  intro l₁
  induction l₁ with
  | nil =>
    intro l₂ _ _
    simp
  | cons a l ih =>
    intro l₂ h1 h2
    cases l₂ with
    | nil => simp
    | cons c l' =>
      rw [List.zip_cons_cons, List.pairwise_cons] at *
      refine ⟨?_, ih h1.2 h2.2⟩
      rintro ⟨q1, q2⟩ hq
      have hm := List.of_mem_zip hq
      exact ⟨h1.1 q1 hm.1, h2.1 q2 hm.2⟩

/-- In a keyed column whose keys and values are both non-decreasing, any
value grouped under a smaller key is at most any value grouped under a
larger key. -/
lemma groupRows_le {k1 k2 : ℕ} (hk : k1 < k2) (zp : List (ℕ × ℚ))
    (hzp : List.Pairwise (fun p q => p.1 ≤ q.1 ∧ p.2 ≤ q.2) zp) :
    ∀ x ∈ zp.filter (fun p => p.1 == k1),
      ∀ y ∈ zp.filter (fun p => p.1 == k2), x.2 ≤ y.2 := by
  induction zp with
  | nil =>
    intro x hx
    simp at hx
  | cons p zp' ih =>
    rw [List.pairwise_cons] at hzp
    intro x hx y hy
    rw [List.filter_cons] at hx hy
    by_cases h1 : (p.1 == k1) = true
    · have h2 : (p.1 == k2) = false := by
        rw [beq_iff_eq] at h1
        simp only [beq_eq_false_iff_ne, ne_eq]
        omega
      rw [if_pos h1] at hx
      rw [if_neg (by simp [h2])] at hy
      rcases List.mem_cons.mp hx with rfl | hx2
      · exact (hzp.1 y (List.mem_of_mem_filter hy)).2
      · exact ih hzp.2 x hx2 y hy
    · rw [if_neg (by simp at h1 ⊢; exact h1)] at hx
      by_cases h2 : (p.1 == k2) = true
      · rw [if_pos h2] at hy
        rcases List.mem_cons.mp hy with rfl | hy2
        · have hx1 : x.1 = k1 := by
            have := List.of_mem_filter hx
            rwa [beq_iff_eq] at this
          have hyk : y.1 = k2 := by rwa [beq_iff_eq] at h2
          have := (hzp.1 x (List.mem_of_mem_filter hx)).1
          omega
        · exact ih hzp.2 x hx y hy2
      · rw [if_neg (by simp at h2 ⊢; exact h2)] at hy
        exact ih hzp.2 x hx y hy

/-- Length of a bin. -/
lemma length_binSeg (s : Series) (b j : ℕ) :
    (binSeg s b j).length = min b (s.length - j * b) := by
  simp [binSeg]

/-- Every bin except the last has exactly `b` rows. -/
lemma binSeg_full (s : Series) (b j : ℕ) (hb : 0 < b)
    (h : j + 1 < numBins s.length b) :
    (binSeg s b j).length = b := by
  have h' : j + 2 ≤ (s.length + b - 1) / b := by unfold numBins at h; omega
  have h1 : (j + 2) * b ≤ s.length + b - 1 :=
    (Nat.le_div_iff_mul_le hb).mp h'
  have hexp : (j + 2) * b = j * b + 2 * b := by ring
  rw [length_binSeg]
  have hle : b ≤ s.length - j * b := by
    set p := j * b
    omega
  omega

/-- The last bin is nonempty. -/
lemma binSeg_last_pos (s : Series) (b : ℕ) (hb : 0 < b) (hn : 0 < s.length) :
    0 < (binSeg s b (numBins s.length b - 1)).length := by
  have hk : 1 ≤ numBins s.length b := numBins_pos _ _ hn hb
  have h1 : numBins s.length b * b ≤ s.length + b - 1 := Nat.div_mul_le_self _ _
  have hexp : (numBins s.length b - 1) * b = numBins s.length b * b - b := by
    rw [Nat.sub_mul, one_mul]
  rw [length_binSeg, hexp]
  set p := numBins s.length b * b
  omega

/-- Sample `i` of the series is sample `i % b` of bin `i / b`: the bins
partition the series by position, consecutively and without overlap. -/
lemma binSeg_elem (s : Series) (b : ℕ) (hb : 0 < b) (i : ℕ) :
    s[i]? = (binSeg s b (i / b))[i % b]? := by
  unfold binSeg
  rw [List.getElem?_take_of_lt (Nat.mod_lt i hb), List.getElem?_drop]
  congr 1
  conv_lhs => rw [← Nat.div_add_mod i b]
  ring_nf

/-- Every bin index below `numBins` starts inside the series. -/
lemma bin_start_lt (n b l : ℕ) (hb : 0 < b) (hl : l < numBins n b) :
    l * b < n := by
  have h1 : (l + 1) * b ≤ n + b - 1 :=
    (Nat.le_div_iff_mul_le hb).mp (by unfold numBins at hl; omega)
  have hexp : (l + 1) * b = l * b + b := by ring
  omega

/-- Filtering a label-keyed zip down to bin key `k` selects, when the
labels are the consecutive run `j, j+1, ...`, exactly the rows whose
label lies in `[k*b, k*b + b)` -- a contiguous slice. -/
lemma zip_range'_filter_div (b k : ℕ) (hb : 0 < b) :
    ∀ (s : Series) (j : ℕ),
      (((List.range' j s.length).zip s).filter
          (fun q => q.1 / b == k)).map Prod.snd
        = (s.drop (k * b - j)).take (k * b + b - max j (k * b)) := by
  intro s
  induction s with
  | nil =>
    intro j
    simp
  | cons x xs ih =>
    intro j
    rcases Nat.lt_or_ge j (k * b) with hj1 | hj1
    · have hkey : (j / b == k) = false := by
        simp only [beq_eq_false_iff_ne, ne_eq]
        intro he
        have hle : j / b * b ≤ j := Nat.div_mul_le_self j b
        rw [he] at hle
        omega
      have h2 : k * b - j = (k * b - (j + 1)) + 1 := by omega
      have h3 : max j (k * b) = k * b := by omega
      have h4 : max (j + 1) (k * b) = k * b := by omega
      rw [List.length_cons, List.range'_succ, List.zip_cons_cons]
      simp only [List.filter_cons, hkey, Bool.false_eq_true, if_false]
      rw [ih (j + 1), h2, List.drop_succ_cons, h3, h4]
    · rcases Nat.lt_or_ge j (k * b + b) with hj2 | hj2
      · have hdiv : j / b = k := by
          apply Nat.div_eq_of_lt_le hj1
          have hexp : (k + 1) * b = k * b + b := by ring
          omega
        have hkey : (j / b == k) = true := by simp [hdiv]
        have h3 : k * b - j = 0 := by omega
        have h5 : k * b - (j + 1) = 0 := by omega
        have h4 : max j (k * b) = j := by omega
        have h6 : max (j + 1) (k * b) = j + 1 := by omega
        have h7 : k * b + b - j = (k * b + b - (j + 1)) + 1 := by omega
        rw [List.length_cons, List.range'_succ, List.zip_cons_cons]
        simp only [List.filter_cons, hkey, if_true, List.map_cons]
        rw [ih (j + 1), h3, h5, h4, h6, List.drop_zero, List.drop_zero, h7,
          List.take_succ_cons]
      · have hkey : (j / b == k) = false := by
          simp only [beq_eq_false_iff_ne, ne_eq]
          intro he
          have hge : k + 1 ≤ j / b := by
            apply (Nat.le_div_iff_mul_le hb).mpr
            have hexp : (k + 1) * b = k * b + b := by ring
            omega
          omega
        have h8 : k * b + b - max (j + 1) (k * b) = 0 := by omega
        have h9 : k * b + b - max j (k * b) = 0 := by omega
        rw [List.length_cons, List.range'_succ, List.zip_cons_cons]
        simp only [List.filter_cons, hkey, Bool.false_eq_true, if_false]
        rw [ih (j + 1), h8, h9, List.take_zero, List.take_zero]

/-- On a fresh `RangeIndex`, the group of bin key `k` is the positional
bin `k`. -/
lemma groupRows_range (s : Series) (b k : ℕ) (hb : 0 < b) :
    groupRows ((List.range s.length).map (fun i => i / b)) s k
      = binSeg s b k := by
  unfold groupRows binSeg
  rw [List.zip_map_left, List.filter_map, List.map_map]
  have hfun : ((fun p : ℕ × Sample => p.1 == k) ∘ Prod.map (fun i => i / b) id)
      = (fun q : ℕ × Sample => q.1 / b == k) := rfl
  have hsnd : (Prod.snd ∘ Prod.map (fun i => i / b) (id : Sample → Sample))
      = (Prod.snd : ℕ × Sample → Sample) := rfl
  rw [hfun, hsnd, List.range_eq_range', zip_range'_filter_div b k hb s 0]
  have h1 : k * b - 0 = k * b := by omega
  have h2 : k * b + b - max 0 (k * b) = b := by omega
  rw [h1, h2]

/-- On a fresh `RangeIndex` with `n` rows, the ascending distinct bin
keys are exactly `0, 1, ..., numBins n b - 1`. -/
lemma groupKeys_range (n b : ℕ) (hn : 0 < n) (hb : 0 < b) :
    groupKeys (List.range n) b = List.range (numBins n b) := by
  unfold groupKeys
  rw [foldr_max_range]
  have hbound : (n - 1) / b + 1 = numBins n b := by
    unfold numBins
    have h1 : n + b - 1 = (n - 1) + b := by omega
    rw [h1, Nat.add_div_right _ hb]
  rw [hbound]
  apply List.filter_eq_self.mpr
  intro k hk
  have hklt : k < numBins n b := List.mem_range.mp hk
  have hstart : k * b < n := bin_start_lt n b k hb hklt
  exact List.elem_iff.mpr (List.mem_map.mpr
    ⟨k * b, List.mem_range.mpr hstart, Nat.mul_div_cancel k hb⟩)

/-- C1 counterexample: on a five-row frame whose index labels are `2..6`
(the first two original rows were dropped) and `max_points = 2`, the
label quotients by `bin_size = 5 // 2 + 1 = 3` are `[0, 1, 1, 1, 2]`, so
`groupby` emits 3 rows -- more than `max_points`. -/
theorem c1_label_bound_counterexample :
    exS5 ≠ [] ∧ 1 ≤ 2 ∧
      (advanced_downsample exIdx5 exS5 2).length = 3 ∧
        ¬ (advanced_downsample exIdx5 exS5 2).length ≤ 2 := by
  refine ⟨by decide, by decide, by decide, by decide⟩

/-- C1 as amended: for every nonempty series and `max_points ≥ 1` the
downsampler emits at least one row, and when the frame's index is the
fresh positional `RangeIndex` `0..n-1` its output length is also at most
`max_points` (with offset or gapped labels, as left by `dropna` or the
time filter, the bound can be exceeded). -/
theorem c1_downsample_bound (idx : List ℕ) (s : Series) (m : ℕ)
    (hlen : idx.length = s.length) (hm : 1 ≤ m) (hs : s ≠ []) :
    1 ≤ (advanced_downsample idx s m).length ∧
      (idx = List.range s.length → (advanced_downsample idx s m).length ≤ m) := by
  have hn : 1 ≤ s.length := List.length_pos.mpr hs
  constructor
  · unfold advanced_downsample
    split
    · omega
    · simp only [List.length_map]
      obtain ⟨i0, idx2, hidx⟩ : ∃ i0 idx2, idx = i0 :: idx2 := by
        cases idx with
        | nil => simp at hlen; omega
        | cons a l => exact ⟨a, l, rfl⟩
      have hmem : i0 / (s.length / m + 1) ∈ groupKeys idx (s.length / m + 1) := by
        rw [mem_groupKeys]
        exact List.mem_map.mpr ⟨i0, by rw [hidx]; exact List.mem_cons_self _ _, rfl⟩
      have := List.length_pos.mpr (List.ne_nil_of_mem hmem)
      omega
  · intro hrange
    subst hrange
    unfold advanced_downsample
    split
    · omega
    · rename_i hslow
      push_neg at hslow
      rw [List.length_map, groupKeys_range s.length _ (by omega) (Nat.succ_pos _),
        List.length_range]
      exact numBins_le s.length m hm hslow

/-- Witness for the amended C1 at a `RangeIndex` four-row frame and
`max_points = 2`. -/
theorem c1_downsample_bound_witness :
    (exIdx4.length = exS4.length ∧ 1 ≤ 2 ∧ exS4 ≠ []) ∧
      (1 ≤ (advanced_downsample exIdx4 exS4 2).length ∧
        (exIdx4 = List.range exS4.length →
          (advanced_downsample exIdx4 exS4 2).length ≤ 2)) :=
  ⟨⟨by decide, by decide, by decide⟩,
    c1_downsample_bound exIdx4 exS4 2 (by decide) (by decide) (by decide)⟩

/-- C2 counterexample.  First, the bin size: on a `RangeIndex` four-row
frame with `max_points = 2` (which divides the length) the source uses
`bin_size = 4 // 2 + 1 = 3`, not `ceil(4 / 2) = 2`, so the first output
row averages three times (10), not two (5).  Second, the bin boundaries:
on the frame with labels `2..6` the groups follow the labels -- the first
group holds the single row labelled 2 (times `[0, 20, 40]`) -- while the
claim's positional partition of the same series yields `[10, 35]`. -/
theorem c2_bin_size_counterexample :
    (advanced_downsample exIdx4 exS4 2).map Sample.time = [10, 30] ∧
      (downsampleClaim exS4 2).map Sample.time = [5, 25] ∧
        advanced_downsample exIdx4 exS4 2 ≠ downsampleClaim exS4 2 ∧
          (advanced_downsample exIdx5 exS5 2).map Sample.time = [0, 20, 40] ∧
            (downsampleClaim exS5 2).map Sample.time = [10, 35] := by
  have h1 : advanced_downsample exIdx4 exS4 2 = [⟨10, 0, 0, 0, 7⟩, ⟨30, 0, 0, 0, 9⟩] := by
    norm_num [advanced_downsample, groupKeys, groupRows, exIdx4, exS4, numBins,
      aggBin, meanQ, maxQ, List.range_succ, List.filter_cons, List.zip_cons_cons]
  have h2 : downsampleClaim exS4 2 = [⟨5, 0, 0, 0, 5⟩, ⟨25, 0, 0, 0, 9⟩] := by
    norm_num [downsampleClaim, exS4, numBins, binSeg, aggBin, meanQ, maxQ,
      List.range_succ]
  have h3 : advanced_downsample exIdx5 exS5 2
      = [⟨0, 0, 0, 0, 0⟩, ⟨20, 0, 0, 0, 3⟩, ⟨40, 0, 0, 0, 4⟩] := by
    norm_num [advanced_downsample, groupKeys, groupRows, exIdx5, exS5, numBins,
      aggBin, meanQ, maxQ, List.range_succ, List.filter_cons, List.zip_cons_cons]
  have h4 : downsampleClaim exS5 2 = [⟨10, 0, 0, 0, 2⟩, ⟨35, 0, 0, 0, 4⟩] := by
    norm_num [downsampleClaim, exS5, numBins, binSeg, aggBin, meanQ, maxQ,
      List.range_succ]
  refine ⟨by rw [h1]; rfl, by rw [h2]; rfl, by rw [h1, h2]; simp,
    by rw [h3]; rfl, by rw [h4]; rfl⟩

/-- C2 as amended: for `length > max_points ≥ 1` the source computes
`bin_size = length // max_points + 1` (not the ceiling) and groups the
rows by `index_label // bin_size`, one aggregated output row per distinct
quotient in ascending order (means for time and the power/speed columns,
max for ride distance).  On a fresh `RangeIndex` this partitions the
series positionally into consecutive, non-overlapping bins of `bin_size`
samples: every bin except the last holds exactly `bin_size` samples, the
last between 1 and `bin_size`, and sample `i` lands in bin `i // bin_size`
at offset `i % bin_size`. -/
theorem c2_downsample_binning (s : Series) (m : ℕ) (hm : 1 ≤ m)
    (hnm : m < s.length) :
    advanced_downsample (List.range s.length) s m =
      (List.range (numBins s.length (s.length / m + 1))).map
        (fun j => aggBin (binSeg s (s.length / m + 1) j)) ∧
    (∀ j, j + 1 < numBins s.length (s.length / m + 1) →
      (binSeg s (s.length / m + 1) j).length = s.length / m + 1) ∧
    0 < (binSeg s (s.length / m + 1)
          (numBins s.length (s.length / m + 1) - 1)).length ∧
    (binSeg s (s.length / m + 1)
          (numBins s.length (s.length / m + 1) - 1)).length ≤ s.length / m + 1 ∧
    (∀ i, i < s.length →
      s[i]? = (binSeg s (s.length / m + 1)
        (i / (s.length / m + 1)))[i % (s.length / m + 1)]?) := by
  have hb : 0 < s.length / m + 1 := Nat.succ_pos _
  refine ⟨?_, fun j hj => binSeg_full s _ j hb hj,
    binSeg_last_pos s _ hb (by omega),
    by rw [length_binSeg]; omega,
    fun i _ => binSeg_elem s _ hb i⟩
  unfold advanced_downsample
  rw [if_neg (by omega)]
  rw [groupKeys_range s.length _ (by omega) hb]
  refine List.map_congr_left (fun k _ => ?_)
  rw [groupRows_range s _ k hb]

/-- Witness for the amended C2 at a `RangeIndex` four-row frame and
`max_points = 2`. -/
theorem c2_downsample_binning_witness :
    (1 ≤ 2 ∧ 2 < exS4.length) ∧
      (advanced_downsample (List.range exS4.length) exS4 2 =
        (List.range (numBins exS4.length (exS4.length / 2 + 1))).map
          (fun j => aggBin (binSeg exS4 (exS4.length / 2 + 1) j)) ∧
      (∀ j, j + 1 < numBins exS4.length (exS4.length / 2 + 1) →
        (binSeg exS4 (exS4.length / 2 + 1) j).length = exS4.length / 2 + 1) ∧
      0 < (binSeg exS4 (exS4.length / 2 + 1)
            (numBins exS4.length (exS4.length / 2 + 1) - 1)).length ∧
      (binSeg exS4 (exS4.length / 2 + 1)
            (numBins exS4.length (exS4.length / 2 + 1) - 1)).length
          ≤ exS4.length / 2 + 1 ∧
      (∀ i, i < exS4.length →
        exS4[i]? = (binSeg exS4 (exS4.length / 2 + 1)
          (i / (exS4.length / 2 + 1)))[i % (exS4.length / 2 + 1)]?)) :=
  ⟨⟨by decide, by decide⟩, c2_downsample_binning exS4 2 (by decide) (by decide)⟩

/-- The seed of a max-fold bounds the fold from below. -/
lemma le_foldl_max (l : List ℚ) (a : ℚ) : a ≤ l.foldl max a := by
  induction l generalizing a with
  | nil => exact le_refl a
  | cons x xs ih => exact le_trans (le_max_left a x) (ih (max a x))

/-- Every member of a list bounds its max-fold from below. -/
lemma mem_le_foldl_max (l : List ℚ) (a x : ℚ) (hx : x ∈ l) :
    x ≤ l.foldl max a := by
  induction l generalizing a with
  | nil => cases hx
  | cons y ys ih =>
    rcases List.mem_cons.mp hx with h | h
    · subst h
      exact le_trans (le_max_right a x) (le_foldl_max ys (max a x))
    · exact ih (max a y) h

/-- A max-fold returns its seed or a member of the list. -/
lemma foldl_max_mem (l : List ℚ) (a : ℚ) : l.foldl max a ∈ a :: l := by
  induction l generalizing a with
  | nil => simp
  | cons y ys ih =>
    rw [List.foldl_cons]
    rcases List.mem_cons.mp (ih (max a y)) with h1 | h1
    · rcases max_choice a y with hc | hc
      · rw [hc] at h1 ⊢
        rw [h1]
        exact List.mem_cons_self _ _
      · rw [hc] at h1 ⊢
        rw [h1]
        exact List.mem_cons.mpr (Or.inr (List.mem_cons_self _ _))
    · exact List.mem_cons.mpr (Or.inr (List.mem_cons.mpr (Or.inr h1)))

/-- The maximum of a nonempty list is one of its members. -/
lemma maxQ_mem (l : List ℚ) (h : l ≠ []) : maxQ l ∈ l := by
  match l with
  | x :: xs => simpa [maxQ] using foldl_max_mem xs x

/-- Every member is at most the maximum. -/
lemma le_maxQ (l : List ℚ) (x : ℚ) (hx : x ∈ l) : x ≤ maxQ l := by
  match l with
  | y :: ys =>
    rcases List.mem_cons.mp hx with h | h
    · subst h; exact le_foldl_max ys x
    · exact mem_le_foldl_max ys y x h

/-- C8: on every frame with strictly increasing index labels (as all
frames in the pipeline have) whose `Ride Distance` column is
non-decreasing, the `Ride Distance` column of the downsampled output is
also non-decreasing: the bin keys ascend with row order, so every row of
a group precedes every row of a later-keyed group and the group maxima
ascend. -/
theorem c8_distance_monotone (idx : List ℕ) (s : Series) (m : ℕ)
    (hlen : idx.length = s.length)
    (hsorted : List.Chain' (fun a c => a < c) idx)
    (h : List.Chain' (fun a c => a ≤ c) (s.map Sample.rideDistance)) :
    List.Chain' (fun a c => a ≤ c)
      ((advanced_downsample idx s m).map Sample.rideDistance) := by
  unfold advanced_downsample
  split
  · exact h
  · set b := s.length / m + 1 with hbdef
    have hlenkd : (idx.map (fun i => i / b)).length
        = (s.map Sample.rideDistance).length := by
      simp [hlen]
    have hpidx : List.Pairwise (fun a c => a < c) idx :=
      List.chain'_iff_pairwise.mp hsorted
    have hpkeys : List.Pairwise (fun a c => a ≤ c) (idx.map (fun i => i / b)) :=
      hpidx.map _ (fun a c hac => Nat.div_le_div_right (le_of_lt hac))
    have hpd : List.Pairwise (fun a c => a ≤ c) (s.map Sample.rideDistance) :=
      List.chain'_iff_pairwise.mp h
    have hzp := pairwise_zip hpkeys hpd
    rw [List.map_map]
    have hfun : (Sample.rideDistance ∘
        fun k => aggBin (groupRows (idx.map (fun i => i / b)) s k))
        = fun k => maxQ (groupRows (idx.map (fun i => i / b))
            (s.map Sample.rideDistance) k) := by
      funext k
      simp only [Function.comp, aggBin]
      rw [groupRows_map]
    rw [hfun, List.chain'_map]
    apply List.Pairwise.chain'
    apply (groupKeys_pairwise idx b).imp_of_mem
    intro k1 k2 h1 h2 hk12
    have hk1 : k1 ∈ idx.map (fun i => i / b) := (mem_groupKeys idx b k1).mp h1
    have hk2 : k2 ∈ idx.map (fun i => i / b) := (mem_groupKeys idx b k2).mp h2
    have hne1 := groupRows_ne_nil _ _ k1 hlenkd hk1
    have hne2 := groupRows_ne_nil _ _ k2 hlenkd hk2
    have hmax1 := maxQ_mem _ hne1
    obtain ⟨y0, hy0⟩ := List.exists_mem_of_ne_nil _ hne2
    unfold groupRows at hmax1 hy0 ⊢
    obtain ⟨px, hpx, hpx2⟩ := List.mem_map.mp hmax1
    obtain ⟨py, hpy, hpy2⟩ := List.mem_map.mp hy0
    have hle := groupRows_le hk12 _ hzp px hpx py hpy
    rw [← hpx2]
    refine le_trans hle ?_
    rw [hpy2]
    exact le_maxQ _ _ hy0

/-- Witness for C8 at the labels `2..6` and the five-sample series with
distances `0..4`, `max_points = 2`. -/
theorem c8_distance_monotone_witness :
    (exIdx5.length = exS5.length ∧
      List.Chain' (fun a c => a < c) exIdx5 ∧
        List.Chain' (fun a c => a ≤ c) (exS5.map Sample.rideDistance)) ∧
      List.Chain' (fun a c => a ≤ c)
        ((advanced_downsample exIdx5 exS5 2).map Sample.rideDistance) :=
  ⟨⟨by decide, by norm_num [exIdx5, List.chain'_cons],
      by norm_num [exS5, List.chain'_cons]⟩,
    c8_distance_monotone exIdx5 exS5 2 (by decide)
      (by norm_num [exIdx5, List.chain'_cons])
      (by norm_num [exS5, List.chain'_cons])⟩

/-- C9 counterexample: downsampling a two-row frame (labels 3 and 5) with
`max_points = 1` leaves the caller's frame changed -- the in-place
assignment `df['bin'] = df.index // bin_size` adds a `'bin'` column
(here `[3 // 3, 5 // 3] = [1, 1]`, with `bin_size = 2 // 1 + 1 = 3`) that
the frame did not have before the call. -/
theorem c9_mutation_counterexample :
    (advanced_downsample_call exDF 1).1 ≠ exDF ∧
      (advanced_downsample_call exDF 1).1.bin = some [1, 1] := by
  constructor
  · intro h
    have : (advanced_downsample_call exDF 1).1.bin = exDF.bin := by rw [h]
    revert this
    decide
  · decide

/-- C9 as amended: downsampling never changes the rows or the index of
its input frame and builds its result as a new series, but when the
series is longer than `max_points` it mutates the input frame in place
by adding the `'bin'` column holding the quotients of the frame's index
labels by `bin_size`; on the fast path the input is untouched. -/
theorem c9_downsample_effect (df : DFrame) (m : ℕ) :
    (advanced_downsample_call df m).1.index = df.index ∧
      (advanced_downsample_call df m).1.s = df.s ∧
      (advanced_downsample_call df m).1.bin =
        (if df.s.length ≤ m then df.bin
         else some (df.index.map (fun i => i / (df.s.length / m + 1)))) ∧
      (advanced_downsample_call df m).2 = advanced_downsample df.index df.s m := by
  unfold advanced_downsample_call advanced_downsample
  split <;> simp_all

/-- C4 counterexample: with `start = 5 > 3 = end` on a concrete series
the core filter does not fail — it returns the empty series as an
ordinary value, unlike the claim-side filter, which fails with
`InvalidRangeError`; and the UI layer (src lines 163-167) silently
corrects the bounds `(start, end) = (500, 300)` within `[0, 1000]` to
`(200, 300)` instead of surfacing a failure. -/
theorem c4_invalid_range_counterexample :
    filterSeries exS3 5 3 = [] ∧
      filterClaim exS3 5 3 = Except.error RangeError.invalidRange ∧
        adjustTimeRange 0 1000 500 300 = (200, 300) := by
  refine ⟨by decide, ?_, by decide⟩
  unfold filterClaim
  rw [if_pos (by norm_num)]

/-- C4 as amended: the core filter raises nothing on an inverted window —
for `start > end` it returns the empty series — and the UI layer, when
`start ≥ end`, corrects the bounds to
`start' = max(min_time, end - 100)`, `end' = min(max_time, start' + 100)`
rather than failing. -/
theorem c4_filter_behavior (s : Series) (a b : ℚ) (mn mx st en : ℤ)
    (hab : b < a) (hse : en ≤ st) :
    filterSeries s a b = [] ∧
      adjustTimeRange mn mx st en =
        (max mn (en - 100), min mx (max mn (en - 100) + 100)) := by
  constructor
  · unfold filterSeries
    rw [List.filter_eq_nil_iff]
    intro x _
    simp only [Bool.and_eq_true, decide_eq_true_eq, not_and]
    intro h1 h2
    linarith
  · unfold adjustTimeRange
    rw [if_pos hse]

/-- Witness for the amended C4 at `start = 5 > 3 = end` (filter) and
`(500, 300)` within `[0, 1000]` (UI correction). -/
theorem c4_filter_behavior_witness :
    ((3 : ℚ) < 5 ∧ (300 : ℤ) ≤ 500) ∧
      (filterSeries exS3 5 3 = [] ∧
        adjustTimeRange 0 1000 500 300 =
          (max 0 (300 - 100), min 1000 (max 0 (300 - 100) + 100))) :=
  ⟨⟨by norm_num, by norm_num⟩,
    c4_filter_behavior exS3 5 3 0 1000 500 300 (by norm_num) (by norm_num)⟩

/-- C3: when some required column is absent from the input schema,
`load_data` fails with the schema error naming exactly the missing
required columns, and no (partial) series is returned. -/
theorem c3_schema_error (t : RawTable) (req : List String)
    (h : ∃ c ∈ req, ¬ c ∈ t.cols) :
    load_data t req =
      .error (.schemaError (req.filter fun c => ! t.cols.contains c)) ∧
      (req.filter fun c => ! t.cols.contains c) ≠ [] ∧
      ∀ c, c ∈ (req.filter fun c => ! t.cols.contains c) ↔
        (c ∈ req ∧ ¬ c ∈ t.cols) := by
  obtain ⟨c0, hc0r, hc0⟩ := h
  have hmem : ∀ c, c ∈ (req.filter fun c => ! t.cols.contains c) ↔
      (c ∈ req ∧ ¬ c ∈ t.cols) := by
    intro c
    rw [List.mem_filter]
    simp
  have hne : (req.filter fun c => ! t.cols.contains c) ≠ [] :=
    List.ne_nil_of_mem ((hmem c0).mpr ⟨hc0r, hc0⟩)
  refine ⟨?_, hne, hmem⟩
  unfold load_data
  rw [if_pos hne]

/-- Witness for C3 at a table lacking `Rider Power`. -/
theorem c3_schema_error_witness :
    (∃ c ∈ requiredCols, ¬ c ∈ exTableMissing.cols) ∧
      (load_data exTableMissing requiredCols =
        .error (.schemaError
          (requiredCols.filter fun c => ! exTableMissing.cols.contains c)) ∧
      (requiredCols.filter fun c => ! exTableMissing.cols.contains c) ≠ [] ∧
      ∀ c, c ∈ (requiredCols.filter fun c => ! exTableMissing.cols.contains c) ↔
        (c ∈ requiredCols ∧ ¬ c ∈ exTableMissing.cols)) :=
  ⟨⟨"Rider Power", by decide, by decide⟩,
    c3_schema_error exTableMissing requiredCols
      ⟨"Rider Power", by decide, by decide⟩⟩

/-- A coerced row holds a `NaN` exactly when the original row fails
numeric coercion in a required column or holds a missing value in any
other column. -/
lemma rowHasNA_coerceRow (req : List String) :
    ∀ (cols : List String) (row : List Cell),
      rowHasNA (coerceRow req cols row) = badRow req cols row := by
  intro cols
  induction cols with
  | nil => intro row; rfl
  | cons c cs ih =>
    intro row
    cases row with
    | nil => rfl
    | cons x xs =>
      have hx : ((if c ∈ req then toNumeric x else x) == Cell.na)
          = (if c ∈ req then ! isNum x else x == Cell.na) := by
        by_cases hc : c ∈ req
        · rw [if_pos hc, if_pos hc]
          cases x <;> rfl
        · rw [if_neg hc, if_neg hc]
      have step1 : rowHasNA (coerceRow req (c :: cs) (x :: xs))
          = (((if c ∈ req then toNumeric x else x) == Cell.na)
              || rowHasNA (coerceRow req cs xs)) := rfl
      have step2 : badRow req (c :: cs) (x :: xs)
          = ((if c ∈ req then ! isNum x else x == Cell.na)
              || badRow req cs xs) := rfl
      rw [step1, step2, hx, ih xs]

/-- Count of rows failing a predicate. -/
lemma countP_not_eq {α : Type} (l : List α) (p : α → Bool) :
    l.countP (fun a => ! p a) = l.length - l.countP p := by
  induction l with
  | nil => rfl
  | cons x xs ih =>
    have hle : xs.countP p ≤ xs.length := List.countP_le_length p
    rw [List.countP_cons, List.countP_cons, List.length_cons, ih]
    by_cases h : p x = true
    · simp [h]
    · simp [h]
      omega


/-- C5 as amended: when every required column is present, cleaning keeps
exactly the rows that both coerce in every required column and hold no
missing value in any other column (in their original order, coerced), so
the cleaned length is the input length minus the count of rows that fail
required-column coercion or hold a missing value elsewhere. -/
theorem c5_cleaning_exact (t : RawTable) (req : List String)
    (h : ∀ c ∈ req, c ∈ t.cols) :
    load_data t req =
      .ok ((t.rows.filter fun r => ! badRow req t.cols r).map
        (coerceRow req t.cols)) ∧
    ((t.rows.filter fun r => ! badRow req t.cols r).map
        (coerceRow req t.cols)).length =
      t.rows.length - t.rows.countP (fun r => badRow req t.cols r) := by
  have hempty : (req.filter fun c => ! t.cols.contains c) = [] := by
    rw [List.filter_eq_nil_iff]
    intro c hc
    simp [h c hc]
  constructor
  · unfold load_data
    rw [if_neg (fun hne => hne hempty)]
    have hfil : (t.rows.filter ((fun r => ! rowHasNA r) ∘ coerceRow req t.cols))
        = t.rows.filter (fun r => ! badRow req t.cols r) := by
      apply List.filter_congr
      intro r _
      simp [Function.comp, rowHasNA_coerceRow]
    rw [List.filter_map, hfil]
  · rw [List.length_map, ← List.countP_eq_length_filter, countP_not_eq]

/-- Witness for the amended C5 at the `Notes` table: the first row (with
the missing note) is dropped, the second kept. -/
theorem c5_cleaning_exact_witness :
    (∀ c ∈ requiredCols, c ∈ exTable.cols) ∧
      (load_data exTable requiredCols =
        .ok ((exTable.rows.filter fun r => ! badRow requiredCols exTable.cols r).map
          (coerceRow requiredCols exTable.cols)) ∧
      ((exTable.rows.filter fun r => ! badRow requiredCols exTable.cols r).map
          (coerceRow requiredCols exTable.cols)).length =
        exTable.rows.length -
          exTable.rows.countP (fun r => badRow requiredCols exTable.cols r)) :=
  ⟨by decide, c5_cleaning_exact exTable requiredCols (by decide)⟩

/-- C5 counterexample: in the `Notes` table no row has a coercion failure
in a required column, yet the cleaned series has 1 row, not
`2 - 0 = 2` — `df.dropna()` also removed the row whose non-required
`Notes` cell was missing. -/
theorem c5_row_drop_counterexample :
    load_data exTable requiredCols =
      .ok [[.num 6, .num 7, .num 8, .num 9, .num 10, .text "dry road"]] ∧
      exTable.rows.countP (fun r => reqCoerceFails requiredCols exTable.cols r) = 0 ∧
      exTable.rows.length = 2 := by
  refine ⟨?_, by decide, by decide⟩
  rfl

/-- C6 counterexample: with the even window `w = 2` (the dashboard's
default `window_size`) on the column `[0, 2]`, the source's centered
rolling mean takes the extra sample from the past — output `[0, 1]` —
while the window stated by the claim (`i - floor((w-1)/2)` to
`i + ceil((w-1)/2)`) takes it from the future — output `[1, 2]`. -/
theorem c6_centered_window_counterexample :
    rollingMean 2 [some 0, some 2] = [some 0, some 1] ∧
      rollingMeanClaim 2 [some 0, some 2] = [some 1, some 2] ∧
        rollingMean 2 [some 0, some 2] ≠ rollingMeanClaim 2 [some 0, some 2] := by
  refine ⟨?_, ?_, ?_⟩ <;>
    norm_num [rollingMean, rollingMeanClaim, windowSlice, winMean,
      List.range_succ, List.filterMap_cons, List.filterMap_nil] <;>
    simp

/-- C6 as amended: for every odd window size the source smoother agrees
exactly with the claim's clipped centered window (the window shrinks at
the edges, no zero padding), and in particular on a column `[a, b, c]`
with `window_size = 3` it outputs `mean(a,b)`, `mean(a,b,c)`,
`mean(b,c)`; for even window sizes the extra sample is taken from the
past side instead of the future side. -/
theorem c6_smoother_window :
    (∀ (k : ℕ) (l : List (Option ℚ)),
      rollingMean (2 * k + 1) l = rollingMeanClaim (2 * k + 1) l) ∧
    (∀ a b c : ℚ, rollingMean 3 [some a, some b, some c] =
      [some ((a + b) / 2), some ((a + b + c) / 3), some ((b + c) / 2)]) := by
  constructor
  · intro k l
    unfold rollingMean rollingMeanClaim
    refine List.map_congr_left (fun i _ => ?_)
    have h3 : i + 1 + (2 * k + 1 - 1) / 2 - (2 * k + 1) = i - k := by omega
    have h4 : i + (2 * k + 1 - 1) / 2 = i + k := by omega
    have h5 : i - (2 * k + 1 - 1) / 2 = i - k := by omega
    have h6 : i + ((2 * k + 1 - 1) - (2 * k + 1 - 1) / 2) = i + k := by omega
    rw [h3, h4, h5, h6]
  · intro a b c
    norm_num [rollingMean, windowSlice, winMean, List.range_succ,
      List.filterMap_cons, List.filterMap_nil]
    simp
    ring

/-- Linear interpolation is the identity on a column without missing
values. -/
lemma interpolateLinear_all_some (l : List (Option ℚ))
    (h : l.all Option.isSome = true) : interpolateLinear l = l := by
  apply List.ext_getElem
  · simp [interpolateLinear]
  · intro i h1 h2
    simp only [interpolateLinear, List.getElem_map, List.getElem_range]
    obtain ⟨v, hv⟩ := Option.isSome_iff_exists.mp
      (List.all_eq_true.mp h _ (List.getElem_mem h2))
    unfold interpAt
    rw [List.getElem?_eq_getElem h2, hv]

/-- Forward fill is the identity on a column without missing values,
whatever value is carried. -/
lemma ffillAux_all_some (l : List (Option ℚ)) (h : l.all Option.isSome = true) :
    ∀ carry, ffillAux carry l = l := by
  induction l with
  | nil => intro carry; rfl
  | cons x xs ih =>
    intro carry
    rw [List.all_cons, Bool.and_eq_true] at h
    obtain ⟨v, hv⟩ := Option.isSome_iff_exists.mp h.1
    subst hv
    simp only [ffillAux]
    rw [ih h.2]

/-- The interpolate-ffill-bfill tail of the smoothing block is the
identity on a column without missing values. -/
lemma postCol_all_some (l : List (Option ℚ)) (h : l.all Option.isSome = true) :
    postCol l = l := by
  unfold postCol ffill bfill
  rw [interpolateLinear_all_some l h, ffillAux_all_some l h,
    ffillAux_all_some l.reverse (by simpa using h), List.reverse_reverse]

/-- C10: on an input frame without missing values, the smoothing block
changes only the `Battery Power`, `Rider Power` and `KMPH` columns; the
`Time` and `Ride Distance` columns come out unchanged. -/
theorem c10_smoothing_frame (w : ℕ) (f : GraphFrame) (h : noMissing f = true) :
    (smoothFrame w f).time = f.time ∧
      (smoothFrame w f).rideDistance = f.rideDistance := by
  unfold noMissing at h
  simp only [Bool.and_eq_true] at h
  unfold smoothFrame
  exact ⟨postCol_all_some f.time h.1.1.1.1, postCol_all_some f.rideDistance h.2⟩

/-- Witness for C10 at a two-row frame and the dashboard's default
`window_size = 2`. -/
theorem c10_smoothing_frame_witness :
    noMissing exFrame = true ∧
      ((smoothFrame 2 exFrame).time = exFrame.time ∧
        (smoothFrame 2 exFrame).rideDistance = exFrame.rideDistance) :=
  ⟨by decide, c10_smoothing_frame 2 exFrame (by decide)⟩

/-- C7: the efficiency metric divides distance by energy when the energy
is positive and returns zero otherwise; over `ℚ` it is a total function,
so no division error, infinity or `NaN` can arise. -/
theorem c7_efficiency_guard :
    (∀ d e : ℚ, 0 < e → efficiency_m_per_wh d e = d / e) ∧
      (∀ d e : ℚ, e ≤ 0 → efficiency_m_per_wh d e = 0) := by
  constructor
  · intro d e he
    unfold efficiency_m_per_wh
    rw [if_pos he]
  · intro d e he
    unfold efficiency_m_per_wh
    rw [if_neg (by linarith)]

/-- Witness for C7: `efficiency_m_per_wh 100 2 = 50` on the positive
branch and the spec's zero-guard instance `efficiency_m_per_wh 100 0 = 0`. -/
theorem c7_efficiency_guard_witness :
    ((0 : ℚ) < 2 ∧ efficiency_m_per_wh 100 2 = 100 / 2) ∧
      ((0 : ℚ) ≤ 0 ∧ efficiency_m_per_wh 100 0 = 0) :=
  ⟨⟨by norm_num, c7_efficiency_guard.1 100 2 (by norm_num)⟩,
    ⟨le_refl 0, c7_efficiency_guard.2 100 0 (le_refl 0)⟩⟩

end PowerPedal
